import Mathlib

/-
Formal model of the dotnet-nunit test report parser
(`src/parsers/dotnet-nunit/dotnet-nunit-parser.ts`) and of its report data
model (`src/parsers/dotnet-nunit/dotnet-nunit-types.ts`).

Modelling conventions:
* JavaScript strings are Lean `String`s; string algorithms are written over
  their character lists so that they evaluate by kernel reduction.
* JavaScript numbers are exact rationals extended with `NaN` and signed
  infinities (IEEE double rounding is abstracted away; every numeric literal
  used in this development is exactly representable as a double).  Rational
  values are built through `mkRat` over integer arithmetic; bridge lemmas
  relate those forms to the ordinary `ℚ` operations.
* `undefined` fields are `Option.none`; fallible operations return `Except`.
-/

namespace DotnetNunit

/-- A JavaScript number: an exact rational, `NaN`, or a signed infinity. -/
inductive JSNumber where
  | num (q : ℚ)
  | nan
  | inf (neg : Bool)
deriving DecidableEq

/-- `q * 1000`, written as a single `mkRat` over integer arithmetic so that
it evaluates by kernel reduction.  `qMul1000_eq` proves it equal to
`q * 1000`. -/
def qMul1000 (q : ℚ) : ℚ := mkRat (q.num * 1000) q.den

/-- JavaScript multiplication by `1000` on a number value:
`NaN * 1000 = NaN`, `±Infinity * 1000 = ±Infinity`. -/
def jsMul1000 : JSNumber → JSNumber
  | .num q => .num (qMul1000 q)
  | .nan => .nan
  | .inf b => .inf b

/-- Whitespace skipped by JavaScript `parseFloat` (the common ASCII white
space characters and NBSP; more exotic Unicode spaces are not used by any
input considered here). -/
def isJsWhitespace (c : Char) : Bool :=
  c = ' ' || c = '\t' || c = '\n' || c = '\r' ||
    c.val = 0x0b || c.val = 0x0c || c.val = 0xa0

/-- Numeric value of a list of decimal digit characters (most significant
first), as JavaScript accumulates them. -/
def digitsVal (ds : List Char) : Nat :=
  ds.foldl (fun n c => 10 * n + (c.toNat - 48)) 0

/-- Model of JavaScript `parseFloat`: skip leading white space, read an
optional sign, then the longest decimal-literal prefix
(`Digits [. Digits] [Exponent]`, `. Digits [Exponent]`, or `Infinity`);
`NaN` when no such prefix exists.  The numeric value is assembled as a
single `mkRat` over integer arithmetic so that it evaluates by kernel
reduction. -/
def jsParseFloat (s : String) : JSNumber :=
  let cs := s.data.dropWhile isJsWhitespace
  let (neg, cs1) :=
    match cs with
    | '+' :: r => (false, r)
    | '-' :: r => (true, r)
    | r => (false, r)
  if cs1.take 8 = "Infinity".data then JSNumber.inf neg
  else
    let intDs := cs1.takeWhile Char.isDigit
    let cs2 := cs1.dropWhile Char.isDigit
    let (fracDs, cs3) :=
      match cs2 with
      | '.' :: r => (r.takeWhile Char.isDigit, r.dropWhile Char.isDigit)
      | _ => ([], cs2)
    if intDs = [] ∧ fracDs = [] then JSNumber.nan
    else
      let (expNeg, expDs) :=
        match cs3 with
        | 'e' :: r | 'E' :: r =>
          match r with
          | '+' :: r2 => (false, r2.takeWhile Char.isDigit)
          | '-' :: r2 => (true, r2.takeWhile Char.isDigit)
          | r2 => (false, r2.takeWhile Char.isDigit)
        | _ => (false, [])
      let e := if expDs = [] then 0 else digitsVal expDs
      let mag : Nat :=
        (digitsVal intDs * 10 ^ fracDs.length + digitsVal fracDs) *
          (if expNeg then 1 else 10 ^ e)
      let den : Nat := 10 ^ fracDs.length * (if expNeg then 10 ^ e else 1)
      JSNumber.num (mkRat (if neg then -(mag : Int) else (mag : Int)) den)

/-- Value of JavaScript `parseInt` on a non-empty all-digit string (the only
shape it is applied to here: the line-number group of the frame pattern). -/
def jsParseIntDigits (ds : List Char) : Nat := digitsVal ds

/-- Splitting a character list at every occurrence of a separator character,
as JavaScript `String.prototype.split` with a single-character separator:
`""` splits to `[""]`, separators at the ends produce empty pieces. -/
def splitOnChar (c : Char) : List Char → List (List Char)
  | [] => [[]]
  | x :: xs =>
    if x = c then [] :: splitOnChar c xs
    else
      match splitOnChar c xs with
      | [] => [[x]]
      | h :: t => (x :: h) :: t

/-- Model of JavaScript `split(/\r?\n/)`: the scan prefers consuming
`"\r\n"` as one separator, otherwise a bare `"\n"`; a lone `'\r'` stays
inside its line. -/
def splitRN : List Char → List (List Char)
  | [] => [[]]
  | '\r' :: '\n' :: rest => [] :: splitRN rest
  | '\n' :: rest => [] :: splitRN rest
  | c :: rest =>
    match splitRN rest with
    | [] => [[c]]
    | h :: t => (c :: h) :: t

/-- Model of JavaScript `String.prototype.trim` (restricted to the ASCII
white-space characters, which cover every input considered here). -/
def jsTrim (s : String) : String :=
  ⟨((s.data.dropWhile isJsWhitespace).reverse.dropWhile isJsWhitespace).reverse⟩

/-- Model of Node's POSIX `path.basename`: trailing slashes are dropped,
then the part after the last remaining slash is returned. -/
def basename (p : String) : String :=
  ⟨((p.data.reverse.dropWhile (fun c => decide (c = '/'))).takeWhile
      (fun c => decide (¬c = '/'))).reverse⟩

/-- Index of the last occurrence of a character in a list. -/
def lastIdxOf (c : Char) (l : List Char) : Option Nat :=
  (l.reverse.findIdx? (fun x => decide (x = c))).map (fun i => l.length - 1 - i)

/-- Model of Node's POSIX `path.dirname`: the scan skips trailing slashes,
then looks for the previous slash at an index of at least 1; with no such
slash the result is `"."` (or `"/"` for a rooted path). -/
def dirname (p : String) : String :=
  match p.data with
  | [] => "."
  | c0 :: rest =>
    let cs := c0 :: rest
    let hasRoot := c0 = '/'
    let core := (cs.reverse.dropWhile (fun c => decide (c = '/'))).reverse
    match lastIdxOf '/' core with
    | none => if hasRoot then "/" else "."
    | some 0 => if hasRoot then "/" else "."
    | some e => if hasRoot ∧ e = 1 then "//" else ⟨cs.take e⟩

/-- Modelled from the spec: `normalizeFilePath` (from `utils/path-utils`,
not part of this repository's sources).  Per the spec (§6) tracked paths
are supplied "pre-normalized to forward-slash-style", so normalization is
modelled as replacing backslashes with forward slashes. -/
def normalizeFilePath (p : String) : String :=
  ⟨p.data.map (fun c => if c = '\\' then '/' else c)⟩

/-! Report data model (`dotnet-nunit-types.ts`).  Attribute bags (`$`) are
inlined into the structures; attributes the parser never reads (the
`tests`/`errors`/`failed`/`skipped`/`passed` counters of a suite) are
omitted. -/

/-- A `<failure>` (or `<error>`) element: either the structured
`message` + `stack-trace` pair of the `Failure` interface, or the raw
string an elementary element deserializes to (the parser handles both via
`typeof failure === 'object'`). -/
inductive Failure where
  | obj (stackTrace : String) (message : String)
  | raw (s : String)
deriving DecidableEq

/-- A `<test-case>` element (`TestCase`): its attributes and optional
failure child. -/
structure TestCase where
  classname : String
  file : Option String
  name : String
  duration : String
  result : String
  failure : Option Failure
deriving DecidableEq

/-- A `<test-suite>` element (`TestSuite`): `name` and `duration`
attributes, optional `test-case` list, optional nested `test-suite`
list. -/
inductive TestSuite where
  | mk (name : String) (duration : String) (cases : Option (List TestCase))
      (nested : Option (List TestSuite))

def TestSuite.name : TestSuite → String
  | .mk n _ _ _ => n

def TestSuite.duration : TestSuite → String
  | .mk _ d _ _ => d

def TestSuite.cases : TestSuite → Option (List TestCase)
  | .mk _ _ c _ => c

def TestSuite.nested : TestSuite → Option (List TestSuite)
  | .mk _ _ _ n => n

/-- The `<test-run>` root (`TestRun`): its `time` attribute (optional — the
parser reads it through `$?.time`) and optional top-level suite list. -/
structure TestRun where
  time : Option String
  suites : Option (List TestSuite)

/-- A deserialized report (`NunitReport`). -/
structure NunitReport where
  testRun : TestRun

/-! Output model, from `test-results` (external to this repository).
Modelled from the spec (§3, "Output model"). -/

/-- Execution outcome of a test case. -/
inductive TestExecutionResult where
  | success
  | failed
  | skipped
deriving DecidableEq

/-- Modelled from the spec: `TestCaseError` — optional resolved file path,
optional line number, raw detail text, optional message. -/
structure TestCaseError where
  path : Option String
  line : Option Nat
  details : String
  message : Option String
deriving DecidableEq

/-- Modelled from the spec: `TestCaseResult` — name, outcome, duration in
milliseconds, optional error detail. -/
structure TestCaseResult where
  name : String
  result : TestExecutionResult
  time : JSNumber
  error : Option TestCaseError
deriving DecidableEq

/-- Modelled from the spec: `TestGroupResult` — group key (a classname) and
its ordered cases. -/
structure TestGroupResult where
  name : String
  tests : List TestCaseResult
deriving DecidableEq

/-- Modelled from the spec: `TestSuiteResult` — name, ordered groups,
duration in milliseconds, nesting depth. -/
structure TestSuiteResult where
  name : String
  groups : List TestGroupResult
  time : JSNumber
  depth : Nat
deriving DecidableEq

/-- Modelled from the spec: `TestRunResult` — source label, ordered suite
results, optional total duration in milliseconds. -/
structure TestRunResult where
  path : String
  suites : List TestSuiteResult
  totalTime : Option JSNumber
deriving DecidableEq

/-- Modelled from the spec: the `ParseOptions` fields the parser uses — the
`parseErrors` flag and the tracked-file list. -/
structure ParseOptions where
  parseErrors : Bool
  trackedFiles : List String

/-! The parser (`DotnetNunitParser`). -/

/-- One step of building a string-keyed multimap in insertion order: find
the entry with the given key and append the value to it, or append a fresh
entry at the end (`files.push(...)` on `map[key] ?? (map[key] = [])`). -/
def insertByKey {β : Type} : List (String × List β) → String → β →
    List (String × List β)
  | [], k, v => [(k, [v])]
  | g :: gs, k, v =>
    if g.1 = k then (g.1, g.2 ++ [v]) :: gs
    else g :: insertByKey gs k v

/-- Building a string-keyed multimap from a list, keyed by `key` and
storing `val` of each element, in insertion order. -/
def keyedGroups {α β : Type} (key : α → String) (val : α → β)
    (l : List α) : List (String × List β) :=
  l.foldl (fun m x => insertByKey m (key x) (val x)) []

/-- The constructor's `trackedFiles` index: for each tracked path, the
original path's base name maps to the normalized path, multiple same-named
files accumulating in tracked order. -/
def buildTrackedFiles (paths : List String) : List (String × List String) :=
  keyedGroups basename normalizeFilePath paths

/-- Property lookup `this.trackedFiles[fileName]` on the index. -/
def lookupTracked (m : List (String × List String)) (k : String) :
    Option (List String) :=
  (m.find? (fun g => decide (g.1 = k))).map (fun g => g.2)

/-- JavaScript truthiness of the `failure` field: `undefined` and the empty
raw string are falsy, every structured failure and non-empty raw string is
truthy. -/
def failureTruthy : Option Failure → Bool
  | none => false
  | some (.raw s) => decide (¬s = "")
  | some (.obj _ _) => true

/-- `getTestCaseResult`: a truthy failure wins, then the exact string
comparison `result === 'Skipped'`, else success. -/
def getTestCaseResult (tc : TestCase) : TestExecutionResult :=
  if failureTruthy tc.failure then .failed
  else if tc.result = "Skipped" then .skipped
  else .success

/-- The JavaScript comparison `part[0] <= 'Z'` used to spot a class-name
segment: true when the first character's code is at most that of `'Z'`
(`undefined <= 'Z'` — the empty segment — is false). -/
def jsHeadLeZ (s : String) : Bool :=
  match s.data with
  | [] => false
  | c :: _ => decide (c ≤ 'Z')

/-- The package-name part of a dotted trace path (`getFilePath`, first
half): split on `'.'`, find the first segment whose head compares `≤ 'Z'`,
and `splice` the list down to the segments strictly before it. -/
def packageParts (tracePath : String) : List String :=
  let parts := (splitOnChar '.' tracePath.data).map (fun l => (⟨l⟩ : String))
  match parts.findIdx? jsHeadLeZ with
  | some i => parts.take i
  | none => parts

/-- `path.dirname(filePath).split(/\//g)`: the directory components of a
candidate tracked path. -/
def dirComponents (filePath : String) : List String :=
  (splitOnChar '/' (dirname filePath).data).map (fun l => (⟨l⟩ : String))

/-- The candidate test of `getFilePath`'s loop body: take the candidate's
directory components; skip it when the package has more segments than
that; otherwise `splice` away all but the last `pkg.length` components and
compare them to the package segments. -/
def dirsMatch (pkg : List String) (filePath : String) : Bool :=
  let dirs := dirComponents filePath
  if pkg.length > dirs.length then false
  else
    let dirs2 :=
      if dirs.length > pkg.length then dirs.drop (dirs.length - pkg.length)
      else dirs
    decide (pkg = dirs2)

/-- `getFilePath`: look up the tracked files sharing the base name, extract
the package segments, fail when there are none, else return the first
candidate whose parent folders reflect the package name. -/
def getFilePath (tracked : List (String × List String))
    (tracePath fileName : String) : Option String :=
  match lookupTracked tracked fileName with
  | none => none
  | some files =>
    let pkg := packageParts tracePath
    if pkg = [] then none
    else files.find? (dirsMatch pkg)

/-! Model of the frame regular expression `/^at (.*)\((.*):(\d+)\)$/` and
its greedy backtracking: each quantified group tries its longest viable
extent first, and `.` does not match a line terminator. -/

/-- Line terminators, which `.` never matches. -/
def isLineTerm (c : Char) : Bool :=
  c = '\n' || c = '\r' || c.val = 0x2028 || c.val = 0x2029

/-- All decompositions `l = a ++ c :: t`, ordered by increasing length of
`a`. -/
def splitsAtChar (c : Char) : List Char → List (List Char × List Char)
  | [] => []
  | x :: xs =>
    let rest := (splitsAtChar c xs).map (fun p => (x :: p.1, p.2))
    if x = c then ([], xs) :: rest else rest

/-- Matching `u` against the pattern tail `\d+\)` anchored at both ends:
`u` must be one or more digits followed by a final `')'`. -/
def matchDigitsParen (u : List Char) : Option (List Char) :=
  match u.reverse with
  | c :: rds =>
    if c = ')' then
      if (¬rds.reverse = []) ∧ rds.reverse.all Char.isDigit then
        some rds.reverse
      else none
    else none
  | [] => none

/-- Matching `t` against `(.*):(\d+)\)` anchored at both ends, with the
greedy group-2 choice: the rightmost `':'` whose left part contains no line
terminator and whose right part is digits-then-`')'` wins. -/
def matchInParens (t : List Char) : Option (List Char × List Char) :=
  ((splitsAtChar ':' t).reverse).findSome? (fun p =>
    if p.1.all (fun ch => !isLineTerm ch) then
      match matchDigitsParen p.2 with
      | some ds => some (p.1, ds)
      | none => none
    else none)

/-- Matching a whole line against `/^at (.*)\((.*):(\d+)\)$/`: the literal
prefix `"at "`, then the greedy group-1 choice of the rightmost `'('` whose
left part contains no line terminator and whose right part matches the
parenthesized tail.  Returns the three captured groups. -/
def matchAtLine (line : List Char) :
    Option (List Char × List Char × List Char) :=
  match line with
  | c1 :: c2 :: c3 :: r =>
    if c1 = 'a' ∧ c2 = 't' ∧ c3 = ' ' then
      ((splitsAtChar '(' r).reverse).findSome? (fun p =>
        if p.1.all (fun ch => !isLineTerm ch) then
          match matchInParens p.2 with
          | some (b, ds) => some (p.1, b, ds)
          | none => none
        else none)
    else none
  | _ => none

/-- `exceptionThrowSource`: split the stack trace on `/\r?\n/`, and for
each line in order, on a frame match attempt `getFilePath` with the
captured trace path and file name; the first line whose match also
resolves wins, with the captured digits read by `parseInt`. -/
def exceptionThrowSource (tracked : List (String × List String))
    (stackTrace : String) : Option (String × Nat) :=
  (splitRN stackTrace.data).findSome? (fun lineCs =>
    match matchAtLine lineCs with
    | some (a, b, ds) =>
      match getFilePath tracked (⟨a⟩ : String) (⟨b⟩ : String) with
      | some fp => some (fp, jsParseIntDigits ds)
      | none => none
    | none => none)

/-- `getTestCaseError`: `undefined` when error parsing is disabled or the
failure field is falsy; otherwise the detail text is the structured
stack-trace (or the raw string), the message is the structured message (or
`undefined`), and path/line come from `exceptionThrowSource` when it
succeeds. -/
def getTestCaseError (parseErrors : Bool)
    (tracked : List (String × List String)) (tc : TestCase) :
    Option TestCaseError :=
  if parseErrors = false then none
  else
    match tc.failure with
    | none => none
    | some f =>
      if failureTruthy (some f) then
        let details := match f with | .obj st _ => st | .raw s => s
        let msg := match f with | .obj _ m => some m | .raw _ => none
        match exceptionThrowSource tracked details with
        | some (fp, ln) => some ⟨some fp, some ln, details, msg⟩
        | none => some ⟨none, none, details, msg⟩
      else none

/-- The `TestCaseResult` built inside `getGroups`'s group builder: trimmed
name, outcome, duration × 1000, and — as the source is written — a literal
`undefined` error (`getTestCaseError` is never invoked by the parser). -/
def mkCaseResult (tc : TestCase) : TestCaseResult :=
  ⟨jsTrim tc.name, getTestCaseResult tc, jsMul1000 (jsParseFloat tc.duration),
    none⟩

/-- `getGroups`: an absent `test-case` list yields no groups; otherwise the
cases are folded into classname-keyed groups in first-seen order (find the
group with the case's classname and push, or append a new group), and each
group is mapped to its `TestGroupResult`. -/
def getGroups (suite : TestSuite) : List TestGroupResult :=
  match suite.cases with
  | none => []
  | some cs =>
    (keyedGroups (fun tc => tc.classname) (fun tc => tc) cs).map
      (fun g => ⟨g.1, g.2.map mkCaseResult⟩)

/-- The `TestSuiteResult` pushed for one suite: trimmed name, its groups,
`parseFloat(duration) * 1000`, and the current depth. -/
def ownSuiteResult (ts : TestSuite) (depth : Nat) : TestSuiteResult :=
  ⟨jsTrim ts.name, getGroups ts, jsMul1000 (jsParseFloat ts.duration), depth⟩

mutual

/-- `getTestSuiteResultRecursive`, body for one suite: push the suite's own
result, then descend into the nested suites at `depth + 1` only when the
suite produced zero groups (and has a nested list).  The source pushes into
a shared accumulator; the flat output list is modelled as in-order
concatenation. -/
def suiteResults : TestSuite → Nat → List TestSuiteResult
  | TestSuite.mk name dur cases nested, depth =>
    ownSuiteResult (TestSuite.mk name dur cases nested) depth ::
      (if getGroups (TestSuite.mk name dur cases nested) = [] then
        match nested with
        | some l => suiteListResults l (depth + 1)
        | none => []
      else [])

/-- `getTestSuiteResultRecursive`, iteration over one level's suite list in
document order. -/
def suiteListResults : List TestSuite → Nat → List TestSuiteResult
  | [], _ => []
  | t :: ts, depth => suiteResults t depth ++ suiteListResults ts depth

end

/-- `getTestSuiteResultRecursive` at the top of a level: an absent list
contributes nothing. -/
def getTestSuiteResultRecursive (suites : Option (List TestSuite))
    (depth : Nat) : List TestSuiteResult :=
  match suites with
  | none => []
  | some l => suiteListResults l depth

/-- `getTestRunResult`: suites from a depth-0 traversal; the total time is
`parseFloat` of the run's `time` attribute × 1000, or absent when that
attribute is missing or unparseable (`isNaN` guard). -/
def getTestRunResult (filePath : String) (nunit : NunitReport) :
    TestRunResult :=
  let suites := getTestSuiteResultRecursive nunit.testRun.suites 0
  let seconds : JSNumber :=
    match nunit.testRun.time with
    | none => JSNumber.nan
    | some s => jsParseFloat s
  let time : Option JSNumber :=
    match seconds with
    | .nan => none
    | x => some (jsMul1000 x)
  ⟨filePath, suites, time⟩

/-- `getNunitReport`: deserialize (the external `xml2js` collaborator is a
parameter), wrapping a deserialization error into
`Invalid XML at <filePath>\n\n<cause>`. -/
def getNunitReport (deser : String → Except String NunitReport)
    (filePath content : String) : Except String NunitReport :=
  match deser content with
  | .ok r => .ok r
  | .error e => .error ("Invalid XML at " ++ filePath ++ "\n\n" ++ e)

/-- `parse`: deserialize, then transform. -/
def parse (deser : String → Except String NunitReport)
    (filePath content : String) : Except String TestRunResult :=
  match getNunitReport deser filePath content with
  | .ok r => .ok (getTestRunResult filePath r)
  | .error e => .error e

/-! Specification-side descriptions.  These follow the spec's wording and
are compared against the source-side definitions above. -/

/-- Distinct keys of a list in first-seen order. -/
def specSeenKeys {α : Type} (key : α → String) (l : List α) : List String :=
  l.foldl (fun ks x => if key x ∈ ks then ks else ks ++ [key x]) []

/-- The grouping described by the spec: one entry per distinct key in
first-seen order, each entry holding the values of the elements with that
key in original order. -/
def groupState {α β : Type} (key : α → String) (val : α → β) (l : List α) :
    List (String × List β) :=
  (specSeenKeys key l).map
    (fun k => (k, (l.filter (fun x => decide (key x = k))).map val))

/-- The candidate acceptance test as the spec words it: the package-prefix
length does not exceed the directory depth and the last `pkg.length`
directory components equal the package segments in order. -/
def specCandidateMatches (pkg : List String) (filePath : String) : Bool :=
  decide (pkg.length ≤ (dirComponents filePath).length) &&
    decide ((dirComponents filePath).drop
      ((dirComponents filePath).length - pkg.length) = pkg)

/-- The tracked files sharing a base name, in tracked order, as the spec
describes the candidate set. -/
def specCandidates (paths : List String) (fileName : String) : List String :=
  (paths.filter (fun p => decide (basename p = fileName))).map
    normalizeFilePath

/-- The spec's uppercase-Latin-letter test for the start of a class-name
segment. -/
def specStartsUpperLatin (s : String) : Bool :=
  match s.data with
  | [] => false
  | c :: _ => decide ('A' ≤ c ∧ c ≤ 'Z')

/-! Concrete report used to exercise the error-extraction path. -/

/-- A structured failure whose stack trace resolves against the tracked
files. -/
def exFailure : Failure :=
  .obj "expected 1 but was 2\nat com.foo.Bar.baz(Bar.java:42)"
    "expected 1 but was 2"

/-- A failing test case carrying `exFailure`. -/
def exCase : TestCase :=
  ⟨"com.foo.Bar", none, " caseA ", "0.5", "Failed", some exFailure⟩

/-- A suite holding the failing case. -/
def exSuite : TestSuite := .mk " Suite1 " "1.5" (some [exCase]) none

/-- A report holding the suite. -/
def exReport : NunitReport := ⟨⟨some "2.5", some [exSuite]⟩⟩

/-- Parser options with error parsing enabled and the failing case's
source file tracked. -/
def exOptions : ParseOptions := ⟨true, ["src/com/foo/Bar.java"]⟩

/-! Generic list lemmas. -/

theorem qMul1000_eq (q : ℚ) : qMul1000 q = q * 1000 := by
  unfold qMul1000
  rw [Rat.mkRat_eq_div]
  push_cast
  rw [mul_div_right_comm, Rat.num_div_den]

theorem jsMul1000_num (q : ℚ) : jsMul1000 (.num q) = .num (q * 1000) := by
  simp [jsMul1000, qMul1000_eq]


theorem find?_eq_some_parts {α : Type} (p : α → Bool) (l : List α) (a : α) :
    l.find? p = some a ↔
      ∃ pre post, l = pre ++ a :: post ∧ p a = true ∧
        ∀ x ∈ pre, p x = false := by
  induction l with
  | nil =>
    constructor
    · intro h; simp [List.find?] at h
    · rintro ⟨pre, post, h, -, -⟩
      exact absurd h.symm
        (List.append_ne_nil_of_right_ne_nil pre (List.cons_ne_nil a post))
  | cons b l ih =>
    by_cases hb : p b
    · rw [List.find?_cons_of_pos _ hb]
      constructor
      · intro h
        obtain rfl : b = a := by injection h
        exact ⟨[], l, rfl, hb, by simp⟩
      · rintro ⟨pre, post, h, hpa, hpre⟩
        match pre, h with
        | [], h => injection h with h1 _; rw [h1]
        | pb :: pre, h =>
          injection h with h1 _
          exact absurd hb (by rw [h1]; simp [hpre pb (by simp)])
    · rw [List.find?_cons_of_neg _ hb]
      rw [ih]
      constructor
      · rintro ⟨pre, post, h, hpa, hpre⟩
        refine ⟨b :: pre, post, by rw [h]; rfl, hpa, ?_⟩
        intro x hx
        rcases List.mem_cons.mp hx with rfl | hx
        · simpa using hb
        · exact hpre x hx
      · rintro ⟨pre, post, h, hpa, hpre⟩
        match pre, h with
        | [], h =>
          injection h with h1 _
          exact absurd hpa (by rw [← h1]; simpa using hb)
        | pb :: pre, h =>
          injection h with h1 h2
          exact ⟨pre, post, h2, hpa, fun x hx => hpre x (by simp [hx])⟩

theorem find?_eq_mem_self {α : Type} [DecidableEq α] (l : List α) (k : α) :
    l.find? (fun x => decide (x = k)) = if k ∈ l then some k else none := by
  induction l with
  | nil => simp
  | cons b l ih =>
    by_cases hb : b = k
    · subst hb
      rw [List.find?_cons_of_pos _ (by simp)]
      simp
    · rw [List.find?_cons_of_neg _ (by simpa using hb)]
      rw [ih]
      by_cases hm : k ∈ l
      · rw [if_pos hm, if_pos (List.mem_cons_of_mem b hm)]
      · rw [if_neg hm, if_neg ?_]
        rw [List.mem_cons]
        rintro (h | h)
        · exact hb h.symm
        · exact hm h

theorem seenKeys_foldl_mem {α : Type} (key : α → String) (l : List α)
    (ks : List String) (k : String) :
    k ∈ l.foldl (fun ks x => if key x ∈ ks then ks else ks ++ [key x]) ks ↔
      k ∈ ks ∨ ∃ x ∈ l, key x = k := by
  induction l generalizing ks with
  | nil => simp
  | cons a l ih =>
    rw [List.foldl_cons, ih]
    by_cases h : key a ∈ ks
    · rw [if_pos h]
      constructor
      · rintro (hk | ⟨x, hx, hkey⟩)
        · exact Or.inl hk
        · exact Or.inr ⟨x, List.mem_cons_of_mem a hx, hkey⟩
      · rintro (hk | ⟨x, hx, hkey⟩)
        · exact Or.inl hk
        · rcases List.mem_cons.mp hx with rfl | hx
          · exact Or.inl (hkey ▸ h)
          · exact Or.inr ⟨x, hx, hkey⟩
    · rw [if_neg h]
      constructor
      · rintro (hk | ⟨x, hx, hkey⟩)
        · rcases List.mem_append.mp hk with hk | hk
          · exact Or.inl hk
          · exact Or.inr ⟨a, List.mem_cons_self a l,
              (List.mem_singleton.mp hk).symm⟩
        · exact Or.inr ⟨x, List.mem_cons_of_mem a hx, hkey⟩
      · rintro (hk | ⟨x, hx, hkey⟩)
        · exact Or.inl (List.mem_append.mpr (Or.inl hk))
        · rcases List.mem_cons.mp hx with rfl | hx
          · exact Or.inl (List.mem_append.mpr (Or.inr (by simp [hkey])))
          · exact Or.inr ⟨x, hx, hkey⟩

theorem seenKeys_foldl_nodup {α : Type} (key : α → String) (l : List α)
    (ks : List String) (h : ks.Nodup) :
    (l.foldl (fun ks x => if key x ∈ ks then ks else ks ++ [key x])
      ks).Nodup := by
  induction l generalizing ks with
  | nil => exact h
  | cons a l ih =>
    rw [List.foldl_cons]
    apply ih
    by_cases hm : key a ∈ ks
    · rwa [if_pos hm]
    · rw [if_neg hm]
      rw [List.nodup_append]
      refine ⟨h, List.nodup_singleton _, ?_⟩
      intro x hx hx'
      rw [List.mem_singleton.mp hx'] at hx
      exact hm hx

theorem mem_specSeenKeys {α : Type} (key : α → String) (l : List α)
    (k : String) :
    k ∈ specSeenKeys key l ↔ ∃ x ∈ l, key x = k := by
  unfold specSeenKeys
  rw [seenKeys_foldl_mem]
  simp

theorem specSeenKeys_nodup {α : Type} (key : α → String) (l : List α) :
    (specSeenKeys key l).Nodup :=
  seenKeys_foldl_nodup key l [] List.nodup_nil

theorem specSeenKeys_append {α : Type} (key : α → String) (l : List α)
    (x : α) :
    specSeenKeys key (l ++ [x]) =
      if key x ∈ specSeenKeys key l then specSeenKeys key l
      else specSeenKeys key l ++ [key x] := by
  unfold specSeenKeys
  rw [List.foldl_append]
  rfl

theorem insertByKey_map_mem {β : Type} (ks : List String)
    (F : String → List β) (k : String) (v : β) (hnd : ks.Nodup)
    (hk : k ∈ ks) :
    insertByKey (ks.map (fun j => (j, F j))) k v =
      ks.map (fun j => (j, if j = k then F j ++ [v] else F j)) := by
  induction ks with
  | nil => cases hk
  | cons j ks ih =>
    rw [List.map_cons, List.map_cons, insertByKey]
    by_cases hj : j = k
    · subst hj
      rw [if_pos rfl]
      simp only [if_pos rfl]
      congr 1
      apply List.map_congr_left
      intro x hx
      have hxj : ¬x = j := fun h => (List.nodup_cons.mp hnd).1 (h ▸ hx)
      simp [hxj]
    · rw [if_neg hj, if_neg hj]
      congr 1
      exact ih (List.nodup_cons.mp hnd).2
        (by rcases List.mem_cons.mp hk with h | h
            · exact absurd h.symm hj
            · exact h)

theorem insertByKey_map_not_mem {β : Type} (ks : List String)
    (F : String → List β) (k : String) (v : β) (hk : ¬k ∈ ks) :
    insertByKey (ks.map (fun j => (j, F j))) k v =
      ks.map (fun j => (j, F j)) ++ [(k, [v])] := by
  induction ks with
  | nil => rfl
  | cons j ks ih =>
    have hj : ¬j = k := fun h => hk (h ▸ List.mem_cons_self j ks)
    rw [List.map_cons, insertByKey, if_neg hj, List.cons_append]
    congr 1
    exact ih (fun h => hk (List.mem_cons_of_mem j h))

theorem keyedGroups_snoc {α β : Type} (key : α → String) (val : α → β)
    (l : List α) (x : α) :
    insertByKey (groupState key val l) (key x) (val x) =
      groupState key val (l ++ [x]) := by
  by_cases hm : key x ∈ specSeenKeys key l
  · rw [groupState, groupState, specSeenKeys_append, if_pos hm]
    rw [insertByKey_map_mem _ _ _ _ (specSeenKeys_nodup key l) hm]
    apply List.map_congr_left
    intro j hj
    by_cases hjx : j = key x
    · subst hjx
      rw [if_pos rfl]
      simp [List.filter_append]
    · rw [if_neg hjx]
      have : ¬(key x = j) := fun h => hjx h.symm
      simp [List.filter_append, this]
  · rw [groupState, groupState, specSeenKeys_append, if_neg hm]
    rw [insertByKey_map_not_mem _ _ _ _ hm]
    rw [List.map_append]
    congr 1
    · apply List.map_congr_left
      intro j hj
      have hjx : ¬(key x = j) := fun h => hm (h ▸ hj)
      simp [List.filter_append, hjx]
    · have hfl : l.filter (fun y => decide (key y = key x)) = [] := by
        rw [List.filter_eq_nil_iff]
        intro a ha
        simp only [decide_eq_true_eq]
        intro h
        exact hm ((mem_specSeenKeys key l (key x)).mpr ⟨a, ha, h⟩)
      simp [List.filter_append, hfl]

theorem keyedGroups_eq {α β : Type} (key : α → String) (val : α → β)
    (l : List α) :
    keyedGroups key val l = groupState key val l := by
  induction l using List.reverseRecOn with
  | nil => rfl
  | append_singleton l x ih =>
    have h1 : keyedGroups key val (l ++ [x]) =
        insertByKey (keyedGroups key val l) (key x) (val x) := by
      simp only [keyedGroups, List.foldl_append, List.foldl_cons,
        List.foldl_nil]
    rw [h1, ih]
    exact keyedGroups_snoc key val l x

/-! Bridging lemmas for path resolution. -/

theorem dirsMatch_eq_spec (pkg : List String) (fp : String) :
    dirsMatch pkg fp = specCandidateMatches pkg fp := by
  unfold dirsMatch specCandidateMatches
  by_cases h : pkg.length > (dirComponents fp).length
  · rw [if_pos h]
    have : ¬pkg.length ≤ (dirComponents fp).length := Nat.not_le.mpr h
    simp [this]
  · rw [if_neg h]
    have hle : pkg.length ≤ (dirComponents fp).length := Nat.le_of_not_lt h
    by_cases h2 : (dirComponents fp).length > pkg.length
    · rw [if_pos h2]
      rw [decide_eq_true hle, Bool.true_and]
      simp [eq_comm]
    · rw [if_neg h2]
      have heq : (dirComponents fp).length = pkg.length :=
        Nat.le_antisymm (Nat.le_of_not_lt h2) hle
      rw [decide_eq_true hle, Bool.true_and]
      rw [heq, Nat.sub_self, List.drop_zero]
      simp [eq_comm]

theorem lookupTracked_build (paths : List String) (fn : String) :
    lookupTracked (buildTrackedFiles paths) fn =
      if specCandidates paths fn = [] then none
      else some (specCandidates paths fn) := by
  unfold buildTrackedFiles
  rw [keyedGroups_eq]
  unfold lookupTracked groupState
  rw [List.find?_map]
  have hcomp : ((fun g => decide ((g : String × List String).1 = fn)) ∘
      (fun k => (k, ((paths.filter
        (fun x => decide (basename x = k))).map normalizeFilePath)))) =
      fun k => decide (k = fn) := rfl
  rw [hcomp, find?_eq_mem_self]
  by_cases hm : fn ∈ specSeenKeys basename paths
  · rw [if_pos hm]
    have hne : ¬specCandidates paths fn = [] := by
      obtain ⟨p, hp, hb⟩ := (mem_specSeenKeys basename paths fn).mp hm
      unfold specCandidates
      intro hcon
      rw [List.map_eq_nil_iff, List.filter_eq_nil_iff] at hcon
      exact hcon p hp (by simp [hb])
    rw [if_neg hne]
    rfl
  · rw [if_neg hm]
    have hz : specCandidates paths fn = [] := by
      unfold specCandidates
      rw [List.map_eq_nil_iff, List.filter_eq_nil_iff]
      intro a ha
      simp only [decide_eq_true_eq]
      intro h
      exact hm ((mem_specSeenKeys basename paths fn).mpr ⟨a, ha, h⟩)
    rw [if_pos hz]
    rfl

/-! Lemmas about `findIdx?`-then-`take` truncation. -/

theorem findIdx?_start {α : Type} (p : α → Bool) (l : List α) (i : Nat) :
    l.findIdx? p i = (l.findIdx? p 0).map (· + i) := by
  induction l generalizing i with
  | nil => rfl
  | cons a l ih =>
    rw [List.findIdx?_cons, List.findIdx?_cons]
    by_cases h : p a
    · simp [h]
    · rw [if_neg h, if_neg h, ih (i + 1), ih 1, Option.map_map]
      apply congrArg (fun f => Option.map f (l.findIdx? p 0))
      funext x
      simp only [Function.comp_apply]
      omega

theorem take_findIdx_eq_takeWhile {α : Type} (p : α → Bool) (l : List α) :
    (match l.findIdx? p with
     | some i => l.take i
     | none => l) = l.takeWhile (fun a => !p a) := by
  induction l with
  | nil => rfl
  | cons a l ih =>
    rw [List.findIdx?_cons]
    by_cases h : p a
    · rw [if_pos h]
      simp [List.takeWhile_cons, h]
    · rw [if_neg h, findIdx?_start p l 1]
      rw [List.takeWhile_cons]
      simp only [h, Bool.not_false, if_true]
      cases hfi : l.findIdx? p 0 with
      | none =>
        simp only [Option.map_none']
        rw [hfi] at ih
        simp only at ih
        rw [← ih]
      | some i =>
        simp only [Option.map_some']
        rw [hfi] at ih
        simp only at ih
        rw [List.take_succ_cons, ih]

/-! Lemmas about the frame matcher. -/

theorem splitsAtChar_parts {c : Char} :
    ∀ {l : List Char} {p : List Char × List Char},
      p ∈ splitsAtChar c l → l = p.1 ++ c :: p.2 := by
  intro l
  induction l with
  | nil =>
    intro p h
    simp [splitsAtChar] at h
  | cons x xs ih =>
    intro p h
    simp only [splitsAtChar] at h
    by_cases hx : x = c
    · rw [if_pos hx] at h
      rcases List.mem_cons.mp h with heq | hmem
      · rw [heq, hx]
        rfl
      · obtain ⟨q, hq, heq⟩ := List.mem_map.mp hmem
        rw [← heq]
        simp only
        rw [List.cons_append]
        exact congrArg (x :: ·) (ih hq)
    · rw [if_neg hx] at h
      obtain ⟨q, hq, heq⟩ := List.mem_map.mp h
      rw [← heq]
      simp only
      rw [List.cons_append]
      exact congrArg (x :: ·) (ih hq)

theorem matchDigitsParen_parts {u ds : List Char}
    (h : matchDigitsParen u = some ds) :
    u = ds ++ [')'] ∧ ¬ds = [] ∧ ds.all Char.isDigit = true := by
  unfold matchDigitsParen at h
  cases hrev : u.reverse with
  | nil => rw [hrev] at h; exact absurd h (by simp)
  | cons c rds =>
    rw [hrev] at h
    simp only at h
    by_cases hc : c = ')'
    · rw [if_pos hc] at h
      by_cases hcond : (¬rds.reverse = []) ∧ rds.reverse.all Char.isDigit
      · rw [if_pos hcond] at h
        have hds : rds.reverse = ds := by injection h
        have hu : u = rds.reverse ++ [c] := by
          have := congrArg List.reverse hrev
          rwa [List.reverse_reverse, List.reverse_cons] at this
        exact ⟨by rw [hu, hds, hc], hds ▸ hcond.1, hds ▸ hcond.2⟩
      · rw [if_neg hcond] at h
        exact absurd h (by simp)
    · rw [if_neg hc] at h
      exact absurd h (by simp)

theorem matchInParens_parts {t : List Char} {b ds : List Char}
    (h : matchInParens t = some (b, ds)) :
    t = b ++ ':' :: (ds ++ [')']) ∧ ¬ds = [] ∧
      ds.all Char.isDigit = true ∧
      b.all (fun ch => !isLineTerm ch) = true := by
  unfold matchInParens at h
  obtain ⟨p, hp, hfp⟩ := List.exists_of_findSome?_eq_some h
  rw [List.mem_reverse] at hp
  by_cases hlt : p.1.all (fun ch => !isLineTerm ch)
  · rw [if_pos hlt] at hfp
    cases hmd : matchDigitsParen p.2 with
    | none => rw [hmd] at hfp; exact absurd hfp (by simp)
    | some ds' =>
      rw [hmd] at hfp
      simp only at hfp
      have hpair : p.1 = b ∧ ds' = ds := by
        have := Option.some.inj hfp
        exact ⟨congrArg Prod.fst this, congrArg Prod.snd this⟩
      obtain ⟨h1, h2⟩ := hpair
      obtain ⟨hu, hne, hdig⟩ := matchDigitsParen_parts hmd
      have ht := splitsAtChar_parts hp
      refine ⟨?_, h2 ▸ hne, h2 ▸ hdig, h1 ▸ hlt⟩
      rw [ht, h1.symm, hu, h2]
  · rw [if_neg hlt] at hfp
    exact absurd hfp (by simp)

theorem matchAtLine_parts {line a b ds : List Char}
    (h : matchAtLine line = some (a, b, ds)) :
    line = 'a' :: 't' :: ' ' :: (a ++ '(' :: (b ++ ':' :: (ds ++ [')']))) ∧
      ¬ds = [] ∧ ds.all Char.isDigit = true := by
  unfold matchAtLine at h
  match line, h with
  | [], h => exact absurd h (by simp)
  | [c1], h => exact absurd h (by simp)
  | [c1, c2], h => exact absurd h (by simp)
  | c1 :: c2 :: c3 :: r, h => ?_
  simp only at h
  by_cases hat : c1 = 'a' ∧ c2 = 't' ∧ c3 = ' '
  · rw [if_pos hat] at h
    obtain ⟨p, hp, hfp⟩ := List.exists_of_findSome?_eq_some h
    rw [List.mem_reverse] at hp
    by_cases hlt : p.1.all (fun ch => !isLineTerm ch)
    · rw [if_pos hlt] at hfp
      cases hmi : matchInParens p.2 with
      | none => rw [hmi] at hfp; exact absurd hfp (by simp)
      | some q =>
        rw [hmi] at hfp
        match q, hmi, hfp with
        | (b', ds'), hmi, hfp => ?_
        simp only at hfp
        have h1 : p.1 = a := congrArg (fun x => x.1) (Option.some.inj hfp)
        have h2 : b' = b :=
          congrArg (fun x => x.2.1) (Option.some.inj hfp)
        have h3 : ds' = ds :=
          congrArg (fun x => x.2.2) (Option.some.inj hfp)
        obtain ⟨ht, hne, hdig⟩ := matchInParens_parts hmi
        refine ⟨?_, h3 ▸ hne, h3 ▸ hdig.1⟩
        have hr := splitsAtChar_parts hp
        rw [hat.1, hat.2.1, hat.2.2, hr, h1.symm, ht, h2, h3]
    · rw [if_neg hlt] at hfp
      exact absurd hfp (by simp)
  · rw [if_neg hat] at h
    exact absurd h (by simp)

theorem take_of_findIdx?_eq_some {α : Type} {p : α → Bool} {l : List α}
    {i : Nat} (h : l.findIdx? p = some i) :
    l.take i = l.takeWhile (fun a => !p a) := by
  have := take_findIdx_eq_takeWhile p l
  rw [h] at this
  exact this

theorem eq_takeWhile_of_findIdx?_eq_none {α : Type} {p : α → Bool}
    {l : List α} (h : l.findIdx? p = none) :
    l = l.takeWhile (fun a => !p a) := by
  have := take_findIdx_eq_takeWhile p l
  rw [h] at this
  exact this

/-- Unfolding equation for `suiteResults` on a constructor. -/
theorem suiteResults_mk (name dur : String) (cases : Option (List TestCase))
    (nested : Option (List TestSuite)) (d : Nat) :
    suiteResults (TestSuite.mk name dur cases nested) d =
      ownSuiteResult (TestSuite.mk name dur cases nested) d ::
        (if getGroups (TestSuite.mk name dur cases nested) = [] then
          getTestSuiteResultRecursive nested (d + 1)
        else []) := by
  rw [suiteResults.eq_def]
  cases nested with
  | none => rfl
  | some l => rfl

/-- Unfolding equation for `suiteListResults` on a cons cell. -/
theorem suiteListResults_cons (t : TestSuite) (rest : List TestSuite)
    (d : Nat) :
    suiteListResults (t :: rest) d =
      suiteResults t d ++ suiteListResults rest d := by
  rw [suiteListResults.eq_def]

/-- A suite whose test-case list is present and non-empty produces at least
one group. -/
theorem getGroups_cons_ne_nil (name dur : String) (c : TestCase)
    (cs : List TestCase) (nested : Option (List TestSuite)) :
    ¬getGroups (TestSuite.mk name dur (some (c :: cs)) nested) = [] := by
  unfold getGroups
  simp only [TestSuite.cases]
  rw [keyedGroups_eq]
  intro hcon
  rw [List.map_eq_nil_iff] at hcon
  unfold groupState at hcon
  rw [List.map_eq_nil_iff] at hcon
  have hmem : c.classname ∈
      specSeenKeys (fun tc => tc.classname) (c :: cs) :=
    (mem_specSeenKeys _ _ _).mpr ⟨c, List.mem_cons_self c cs, rfl⟩
  rw [hcon] at hmem
  cases hmem

/-! The claims. -/

/-- **C2**: with a non-empty extracted package prefix, path resolution
returns a tracked path iff some tracked file has exactly the given base
name and its last `N` parent-directory components (`N` = prefix length)
equal the prefix segments component-for-component in order; among the
candidates sharing the base name the first in tracked order that matches
wins (a candidate with fewer directory components than the prefix failing
the acceptance test); with no tracked file of that base name, or no
matching candidate, resolution fails. -/
theorem c2_path_resolution (paths : List String) (tp fn : String)
    (h : ¬packageParts tp = []) :
    (∀ p, getFilePath (buildTrackedFiles paths) tp fn = some p ↔
      ∃ pre post, specCandidates paths fn = pre ++ p :: post ∧
        specCandidateMatches (packageParts tp) p = true ∧
        ∀ q ∈ pre, specCandidateMatches (packageParts tp) q = false) ∧
    (getFilePath (buildTrackedFiles paths) tp fn = none ↔
      ∀ q ∈ specCandidates paths fn,
        specCandidateMatches (packageParts tp) q = false) := by
  have hdm : dirsMatch (packageParts tp) =
      specCandidateMatches (packageParts tp) :=
    funext (dirsMatch_eq_spec _)
  unfold getFilePath
  rw [lookupTracked_build]
  by_cases hc : specCandidates paths fn = []
  · rw [if_pos hc]
    constructor
    · intro p
      constructor
      · intro hcon
        exact absurd hcon (by simp)
      · rintro ⟨pre, post, hsplit, -, -⟩
        rw [hc] at hsplit
        exact absurd hsplit.symm
          (List.append_ne_nil_of_right_ne_nil pre (List.cons_ne_nil p post))
    · rw [hc]
      simp
  · rw [if_neg hc]
    simp only [if_neg h]
    rw [hdm]
    constructor
    · intro p
      exact find?_eq_some_parts _ _ _
    · rw [List.find?_eq_none]
      constructor
      · intro hall q hq
        have := hall q hq
        simpa using this
      · intro hall q hq
        simp [hall q hq]

/-- **C3** counterexample: on the trace path `"a.1b.c"` no segment starts
with an uppercase Latin letter, so by the claim nothing would be truncated
and the package prefix would be all three segments; the code truncates at
`"1b"` (the comparison `part[0] <= 'Z'` also accepts a digit), keeping
`["a"]` only. -/
theorem c3_counterexample :
    (∀ s ∈ (splitOnChar '.' "a.1b.c".data).map (fun l => (⟨l⟩ : String)),
      specStartsUpperLatin s = false) ∧
    packageParts "a.1b.c" = ["a"] ∧
    ¬packageParts "a.1b.c" =
      (splitOnChar '.' "a.1b.c".data).map (fun l => (⟨l⟩ : String)) := by
  decide

/-- **C3** (amended): the dotted trace path split on `'.'` is truncated to
the segments strictly before the first segment whose first character
compares `≤ 'Z'` by character code — uppercase Latin letters, but also
digits and other low-code characters; an empty segment never qualifies —
and when the prefix comes out empty (in particular when the very first
segment qualifies) resolution fails. -/
theorem c3_package_extraction (tracked : List (String × List String))
    (tp fn : String) :
    packageParts tp =
      ((splitOnChar '.' tp.data).map (fun l => (⟨l⟩ : String))).takeWhile
        (fun seg => !jsHeadLeZ seg) ∧
    (packageParts tp = [] → getFilePath tracked tp fn = none) := by
  constructor
  · unfold packageParts
    cases hfi : ((splitOnChar '.' tp.data).map
        (fun l => (⟨l⟩ : String))).findIdx? jsHeadLeZ with
    | none =>
      simp only [hfi]
      exact eq_takeWhile_of_findIdx?_eq_none hfi
    | some i =>
      simp only [hfi]
      exact take_of_findIdx?_eq_some hfi
  · intro hpp
    unfold getFilePath
    cases hl : lookupTracked tracked fn with
    | none => rfl
    | some files =>
      simp only [hpp]
      simp

/-- **C5** counterexample: a test case whose failure field is present but
holds the raw empty string is not classified `failed` (JavaScript treats
`""` as falsy in `if (test.failure)`), although the claim requires `failed`
for every present failure element. -/
theorem c5_counterexample :
    (TestCase.mk "C" none "n" "1" "Passed"
        (some (Failure.raw ""))).failure.isSome = true ∧
    ¬getTestCaseResult
        (TestCase.mk "C" none "n" "1" "Passed" (some (Failure.raw ""))) =
      TestExecutionResult.failed := by
  decide

/-- **C5** (amended): a present failure element yields `failed` unless it
is the raw empty string (falsy, treated as absent); with a falsy failure
field the outcome is `skipped` exactly on the case-sensitive result value
`"Skipped"` and `success` otherwise — in particular lowercase `"skipped"`
yields `success`. -/
theorem c5_outcome_priority (tc : TestCase) :
    (∀ f, tc.failure = some f → failureTruthy (some f) = true →
      getTestCaseResult tc = TestExecutionResult.failed) ∧
    (failureTruthy tc.failure = false →
      getTestCaseResult tc =
        if tc.result = "Skipped" then TestExecutionResult.skipped
        else TestExecutionResult.success) ∧
    (tc.failure = none → tc.result = "skipped" →
      getTestCaseResult tc = TestExecutionResult.success) := by
  refine ⟨?_, ?_, ?_⟩
  · intro f hf ht
    unfold getTestCaseResult
    rw [hf, ht]
    rfl
  · intro hft
    unfold getTestCaseResult
    rw [hft]
    rfl
  · intro hn hres
    unfold getTestCaseResult
    rw [hn, hres]
    rfl

/-- **C6**: grouping is by the classname attribute — the groups appear in
first-seen order of the distinct classnames, each group's key is the
shared classname, within a group the cases keep their original order with
trimmed names, and an absent test-case list yields no groups. -/
theorem c6_grouping (suite : TestSuite) :
    (suite.cases = none → getGroups suite = []) ∧
    (∀ cs, suite.cases = some cs →
      getGroups suite =
        (specSeenKeys (fun tc => tc.classname) cs).map
          (fun k => TestGroupResult.mk k
            ((cs.filter (fun tc => decide (tc.classname = k))).map
              mkCaseResult))) := by
  constructor
  · intro h
    unfold getGroups
    rw [h]
  · intro cs h
    unfold getGroups
    rw [h]
    simp only
    rw [keyedGroups_eq]
    unfold groupState
    rw [List.map_map]
    apply List.map_congr_left
    intro k hk
    simp only [Function.comp_apply]
    congr 1
    rw [List.map_map]
    rfl

/-- **C4**: suites are visited in document order with each suite's own
result placed before anything contributed by its descendants (pre-order,
flat accumulator); descent into the nested suites, at depth `+ 1`, happens
exactly when the suite produced zero groups; and a suite with a non-empty
test-case list contributes only its own result — its nested suites are
never visited even when structurally present. -/
theorem c4_traversal :
    (∀ t rest d, suiteListResults (t :: rest) d =
      suiteResults t d ++ suiteListResults rest d) ∧
    (∀ name dur cases nested d,
      getGroups (TestSuite.mk name dur cases nested) = [] →
        suiteResults (TestSuite.mk name dur cases nested) d =
          ownSuiteResult (TestSuite.mk name dur cases nested) d ::
            getTestSuiteResultRecursive nested (d + 1)) ∧
    (∀ name dur cases nested d,
      ¬getGroups (TestSuite.mk name dur cases nested) = [] →
        suiteResults (TestSuite.mk name dur cases nested) d =
          [ownSuiteResult (TestSuite.mk name dur cases nested) d]) ∧
    (∀ name dur c cs nested d,
      suiteResults (TestSuite.mk name dur (some (c :: cs)) nested) d =
        [ownSuiteResult (TestSuite.mk name dur (some (c :: cs)) nested) d]) := by
  have h2 : ∀ (name dur : String) (cases : Option (List TestCase))
      (nested : Option (List TestSuite)) (d : Nat),
      getGroups (TestSuite.mk name dur cases nested) = [] →
        suiteResults (TestSuite.mk name dur cases nested) d =
          ownSuiteResult (TestSuite.mk name dur cases nested) d ::
            getTestSuiteResultRecursive nested (d + 1) := by
    intro name dur cases nested d h
    rw [suiteResults_mk, if_pos h]
  have h3 : ∀ (name dur : String) (cases : Option (List TestCase))
      (nested : Option (List TestSuite)) (d : Nat),
      ¬getGroups (TestSuite.mk name dur cases nested) = [] →
        suiteResults (TestSuite.mk name dur cases nested) d =
          [ownSuiteResult (TestSuite.mk name dur cases nested) d] := by
    intro name dur cases nested d h
    rw [suiteResults_mk, if_neg h]
  refine ⟨?_, h2, h3, ?_⟩
  · intro t rest d
    rw [suiteListResults_cons]
  · intro name dur c cs nested d
    exact h3 name dur (some (c :: cs)) nested d
      (getGroups_cons_ne_nil name dur c cs nested)

/-- **C7**: the run duration is the run's `time` attribute parsed and
multiplied by 1000 when that attribute is present and parses as a number;
with the attribute missing or unparseable the run duration is absent —
`none`, not zero and not a numeric sentinel. -/
theorem c7_run_duration (label : String) (r : NunitReport) :
    (r.testRun.time = none → (getTestRunResult label r).totalTime = none) ∧
    (∀ s, r.testRun.time = some s → jsParseFloat s = JSNumber.nan →
      (getTestRunResult label r).totalTime = none) ∧
    (∀ s q, r.testRun.time = some s → jsParseFloat s = JSNumber.num q →
      (getTestRunResult label r).totalTime =
        some (JSNumber.num (q * 1000))) := by
  refine ⟨?_, ?_, ?_⟩
  · intro h
    simp only [getTestRunResult, h]
  · intro s hs hnan
    simp only [getTestRunResult, hs, hnan]
  · intro s q hs hq
    simp only [getTestRunResult, hs, hq, jsMul1000_num]

/-- **C8**: each suite's emitted result carries duration
`parseFloat(duration) * 1000` milliseconds; `"1.5"` seconds yields `1500`
milliseconds, and an unparseable duration attribute propagates `NaN` into
the emitted `TestSuiteResult` (which is still emitted) rather than failing
or omitting the value. -/
theorem c8_suite_duration :
    (∀ name dur cases nested d,
      (suiteResults (TestSuite.mk name dur cases nested) d).head? =
        some (ownSuiteResult (TestSuite.mk name dur cases nested) d) ∧
      (ownSuiteResult (TestSuite.mk name dur cases nested) d).time =
        jsMul1000 (jsParseFloat dur)) ∧
    jsMul1000 (jsParseFloat "1.5") = JSNumber.num 1500 ∧
    jsMul1000 (jsParseFloat "unparseable") = JSNumber.nan := by
  refine ⟨?_, by decide, by decide⟩
  intro name dur cases nested d
  constructor
  · rw [suiteResults_mk]
    rfl
  · rfl

/-- **C9**: the parse operation fails iff deserialization fails, the
raised error carrying the supplied source label and the underlying cause;
every successfully deserialized report is transformed totally (missing
optional fields and resolution failures never abort). -/
theorem c9_parse_failure (deser : String → Except String NunitReport)
    (fp content : String) :
    ((∃ m, parse deser fp content = .error m) ↔
      ∃ e, deser content = .error e) ∧
    (∀ e, deser content = .error e →
      parse deser fp content =
        .error ("Invalid XML at " ++ fp ++ "\n\n" ++ e)) ∧
    (∀ r, deser content = .ok r →
      parse deser fp content = .ok (getTestRunResult fp r)) := by
  have herr : ∀ e, deser content = .error e →
      parse deser fp content =
        .error ("Invalid XML at " ++ fp ++ "\n\n" ++ e) := by
    intro e he
    simp only [parse, getNunitReport, he]
  have hok : ∀ r, deser content = .ok r →
      parse deser fp content = .ok (getTestRunResult fp r) := by
    intro r hr
    simp only [parse, getNunitReport, hr]
  refine ⟨?_, herr, hok⟩
  constructor
  · rintro ⟨m, hm⟩
    cases hd : deser content with
    | ok r =>
      rw [hok r hd] at hm
      cases hm
    | error e => exact ⟨e, rfl⟩
  · rintro ⟨e, he⟩
    exact ⟨_, herr e he⟩

/-- **C10**: a line is treated as a stack frame only when it matches the
pattern exactly: it begins with the three characters `at ` (so any leading
whitespace defeats the match), the line-number group is one or more
decimal digits, and the line ends immediately after the closing
parenthesis — any trailing characters defeat the match, so such a line
never contributes a resolved path. -/
theorem c10_frame_exactness (line a b ds : List Char)
    (h : matchAtLine line = some (a, b, ds)) :
    line = 'a' :: 't' :: ' ' ::
        (a ++ '(' :: (b ++ ':' :: (ds ++ [')']))) ∧
      ¬ds = [] ∧ ds.all Char.isDigit = true :=
  matchAtLine_parts h

/-- **C1**: with error parsing enabled and a failure whose stack trace
resolves against the tracked files, `getTestCaseError` produces the full
`TestCaseError` — detail text from the stack trace, the structured
message, and the resolved path and line 42 — yet the `TestCaseResult` in
the parse output carries no error at all: `getGroups` constructs every
case result with a literal `undefined` error and never invokes
`getTestCaseError`. -/
theorem c1_error_not_attached :
    getTestCaseError exOptions.parseErrors
        (buildTrackedFiles exOptions.trackedFiles) exCase =
      some ⟨some "src/com/foo/Bar.java", some 42,
        "expected 1 but was 2\nat com.foo.Bar.baz(Bar.java:42)",
        some "expected 1 but was 2"⟩ ∧
    (getTestRunResult "report.xml" exReport).suites.map
        (fun s => s.groups.map (fun g => g.tests.map (fun t => t.error))) =
      [[[none]]] := by
  decide

/-! Witnesses: the theorems above applied at concrete inputs. -/

/-- Witness for C2. -/
theorem c2_witness :
    ¬packageParts "com.foo.Bar.baz" = [] ∧
    (getFilePath (buildTrackedFiles ["a/Bar.java", "src/com/foo/Bar.java"])
        "com.foo.Bar.baz" "Bar.java" = some "src/com/foo/Bar.java" ↔
      ∃ pre post,
        specCandidates ["a/Bar.java", "src/com/foo/Bar.java"] "Bar.java" =
          pre ++ "src/com/foo/Bar.java" :: post ∧
        specCandidateMatches (packageParts "com.foo.Bar.baz")
          "src/com/foo/Bar.java" = true ∧
        ∀ q ∈ pre,
          specCandidateMatches (packageParts "com.foo.Bar.baz") q =
            false) :=
  ⟨by decide,
    (c2_path_resolution ["a/Bar.java", "src/com/foo/Bar.java"]
      "com.foo.Bar.baz" "Bar.java" (by decide)).1 "src/com/foo/Bar.java"⟩

/-- Witness for C3. -/
theorem c3_witness :
    packageParts "Bar.baz" = [] ∧
    getFilePath (buildTrackedFiles ["src/Bar.java"]) "Bar.baz" "Bar.java" =
      none :=
  ⟨by decide,
    (c3_package_extraction (buildTrackedFiles ["src/Bar.java"]) "Bar.baz"
      "Bar.java").2 (by decide)⟩

/-- Witness for C4. -/
theorem c4_witness :
    suiteResults
        (TestSuite.mk "E" "1" none
          (some [TestSuite.mk "In" "0.5" none none])) 0 =
      ownSuiteResult
          (TestSuite.mk "E" "1" none
            (some [TestSuite.mk "In" "0.5" none none])) 0 ::
        getTestSuiteResultRecursive
          (some [TestSuite.mk "In" "0.5" none none]) 1 ∧
    suiteResults
        (TestSuite.mk "Out" "1"
          (some [TestCase.mk "c" none "n" "1" "Passed" none])
          (some [TestSuite.mk "In" "0.5" none none])) 0 =
      [ownSuiteResult
          (TestSuite.mk "Out" "1"
            (some [TestCase.mk "c" none "n" "1" "Passed" none])
            (some [TestSuite.mk "In" "0.5" none none])) 0] :=
  ⟨c4_traversal.2.1 "E" "1" none
      (some [TestSuite.mk "In" "0.5" none none]) 0 (by decide),
    c4_traversal.2.2.1 "Out" "1"
      (some [TestCase.mk "c" none "n" "1" "Passed" none])
      (some [TestSuite.mk "In" "0.5" none none]) 0 (by decide)⟩

/-- Witness for C5. -/
theorem c5_witness :
    getTestCaseResult
        (TestCase.mk "C" none "n" "1" "Ok" (some (.obj "st" "m"))) =
      TestExecutionResult.failed ∧
    getTestCaseResult (TestCase.mk "C" none "n" "1" "skipped" none) =
      TestExecutionResult.success :=
  ⟨(c5_outcome_priority
      (TestCase.mk "C" none "n" "1" "Ok" (some (.obj "st" "m")))).1
      (.obj "st" "m") rfl (by decide),
    (c5_outcome_priority
      (TestCase.mk "C" none "n" "1" "skipped" none)).2.2 rfl rfl⟩

/-- Witness for C6. -/
theorem c6_witness :
    getGroups
        (TestSuite.mk "S" "1"
          (some [TestCase.mk "A" none " a1 " "1" "Passed" none,
            TestCase.mk "B" none "b1" "1" "Passed" none,
            TestCase.mk "A" none "a2" "1" "Passed" none]) none) =
      (specSeenKeys (fun tc => tc.classname)
          [TestCase.mk "A" none " a1 " "1" "Passed" none,
            TestCase.mk "B" none "b1" "1" "Passed" none,
            TestCase.mk "A" none "a2" "1" "Passed" none]).map
        (fun k => TestGroupResult.mk k
          (([TestCase.mk "A" none " a1 " "1" "Passed" none,
              TestCase.mk "B" none "b1" "1" "Passed" none,
              TestCase.mk "A" none "a2" "1" "Passed" none].filter
            (fun tc => decide (tc.classname = k))).map mkCaseResult)) :=
  (c6_grouping
      (TestSuite.mk "S" "1"
        (some [TestCase.mk "A" none " a1 " "1" "Passed" none,
          TestCase.mk "B" none "b1" "1" "Passed" none,
          TestCase.mk "A" none "a2" "1" "Passed" none]) none)).2
    [TestCase.mk "A" none " a1 " "1" "Passed" none,
      TestCase.mk "B" none "b1" "1" "Passed" none,
      TestCase.mk "A" none "a2" "1" "Passed" none] rfl

/-- Witness for C7. -/
theorem c7_witness :
    (getTestRunResult "r.xml" ⟨⟨none, none⟩⟩).totalTime = none ∧
    (getTestRunResult "r.xml" ⟨⟨some "zz", none⟩⟩).totalTime = none ∧
    (getTestRunResult "r.xml" ⟨⟨some "2.5", none⟩⟩).totalTime =
      some (JSNumber.num (mkRat 5 2 * 1000)) :=
  ⟨(c7_run_duration "r.xml" ⟨⟨none, none⟩⟩).1 rfl,
    (c7_run_duration "r.xml" ⟨⟨some "zz", none⟩⟩).2.1 "zz" rfl (by decide),
    (c7_run_duration "r.xml" ⟨⟨some "2.5", none⟩⟩).2.2 "2.5" (mkRat 5 2)
      rfl (by decide)⟩

/-- Witness for C9. -/
theorem c9_witness :
    parse (fun _ => Except.error "mismatched tag") "report.xml" "<bad" =
      Except.error ("Invalid XML at " ++ "report.xml" ++ "\n\n" ++
        "mismatched tag") ∧
    parse (fun _ => Except.ok ⟨⟨none, none⟩⟩) "report.xml" "<test-run/>" =
      Except.ok (getTestRunResult "report.xml" ⟨⟨none, none⟩⟩) :=
  ⟨(c9_parse_failure (fun _ => Except.error "mismatched tag") "report.xml"
      "<bad").2.1 "mismatched tag" rfl,
    (c9_parse_failure (fun _ => Except.ok ⟨⟨none, none⟩⟩) "report.xml"
      "<test-run/>").2.2 ⟨⟨none, none⟩⟩ rfl⟩

/-- Witness for C10. -/
theorem c10_witness :
    "at com.foo.Bar.baz(Bar.java:42)".data =
      'a' :: 't' :: ' ' ::
        ("com.foo.Bar.baz".data ++ '(' ::
          ("Bar.java".data ++ ':' :: ("42".data ++ [')']))) ∧
      ¬"42".data = [] ∧ "42".data.all Char.isDigit = true :=
  c10_frame_exactness "at com.foo.Bar.baz(Bar.java:42)".data
    "com.foo.Bar.baz".data "Bar.java".data "42".data (by decide)

end DotnetNunit
